import Mathlib

/-!
# Verification of the aicommit core against its specification

Shallow embedding of the Go sources of `aicommit` (package `llm`:
`ParseResponse`, `CommitMessage.Format`, `TruncateDiff`, the three
provider constructors and `NewClient`; package `prompt`:
`EditCommitMessage`).  Go strings are modelled as `List Char`; Go's
byte-oriented `len`/slicing coincides with the character count on the
ASCII data all claims use.
-/

namespace AICommit

/-- A Go string, modelled as its list of characters. -/
abbrev Str := List Char

/-- Conversion from a Lean string literal to the model type. -/
def str (s : String) : Str := s.toList

/-- Go `unicode.IsSpace`, restricted to the code points it accepts
(the full `White_Space` table). -/
def isSpace (c : Char) : Bool :=
  c == ' ' || c == '\t' || c == '\n' || c.toNat == 0x0B || c.toNat == 0x0C ||
  c == '\r' || c.toNat == 0x85 || c.toNat == 0xA0 || c.toNat == 0x1680 ||
  (0x2000 ≤ c.toNat && c.toNat ≤ 0x200A) ||
  c.toNat == 0x2028 || c.toNat == 0x2029 || c.toNat == 0x202F ||
  c.toNat == 0x205F || c.toNat == 0x3000

/-- Left half of Go `strings.TrimSpace`. -/
def trimLeft (s : Str) : Str := s.dropWhile isSpace

/-- Right half of Go `strings.TrimSpace`. -/
def trimRight (s : Str) : Str := (s.reverse.dropWhile isSpace).reverse

/-- Go `strings.TrimSpace`. -/
def trimSpace (s : Str) : Str := trimRight (trimLeft s)

/-- Go `strings.HasPrefix s p`. -/
def startsWith : Str → Str → Bool
  | _, [] => true
  | [], _ :: _ => false
  | c :: cs, p :: ps => (c == p) && startsWith cs ps

/-- Go `strings.TrimPrefix s p`. -/
def trimPref (s p : Str) : Str :=
  if startsWith s p then s.drop p.length else s

/-- Go `strings.Split s "\n"`. -/
def splitNl : Str → List Str
  | [] => [[]]
  | c :: rest =>
    match splitNl rest with
    | [] => [[]]
    | l :: ls => if c = '\n' then [] :: l :: ls else (c :: l) :: ls

/-- Go `strings.Contains s sub`. -/
def containsSub (s sub : Str) : Bool :=
  s.tails.any (fun t => startsWith t sub)

/-- Go `strings.ToLower`, on the ASCII letters (all model names the
dispatcher inspects are ASCII). -/
def toLowerChar (c : Char) : Char :=
  if 'A' ≤ c && c ≤ 'Z' then Char.ofNat (c.toNat + 32) else c

/-- Lower-casing of a whole string. -/
def toLowerStr (s : Str) : Str := s.map toLowerChar

/-- Go `strings.Join xs "\n"`. -/
def joinNl (xs : List Str) : Str := List.intercalate (str "\n") xs

/-- The structured commit message (`llm.CommitMessage`). -/
structure CommitMessage where
  Header : Str
  Description : Str
deriving DecidableEq, Repr

/-- `CommitMessage.Format`: header, blank line, description; the
description block is omitted when empty. -/
def CommitMessage.Format (c : CommitMessage) : Str :=
  if c.Description = [] then c.Header
  else c.Header ++ str "\n\n" ++ c.Description

/-- The `HEADER:` marker of the response format. -/
def hdrMark : Str := str "HEADER:"

/-- The `DESCRIPTION:` marker of the response format. -/
def descMark : Str := str "DESCRIPTION:"

/-- One step of `ParseResponse`'s scan over the lines: the running
`(header, description)` pair, updated exactly as the Go loop body does. -/
def pstep (acc : Str × Str) (line : Str) : Str × Str :=
  let t := trimSpace line
  if startsWith t hdrMark then (trimSpace (trimPref t hdrMark), acc.2)
  else if startsWith t descMark then (acc.1, trimSpace (trimPref t descMark))
  else acc

/-- `llm.ParseResponse`: scan all lines, keep the running header and
description, fail when the header ends up empty, truncate a header
longer than 72 characters. -/
def ParseResponse (response : Str) : Option CommitMessage :=
  let lines := splitNl response
  let acc := lines.foldl pstep ([], [])
  if acc.1 = [] then none
  else some ⟨if acc.1.length > 72 then acc.1.take 72 else acc.1, acc.2⟩

/-- The truncation marker `TruncateDiff` appends. -/
def truncMarker : Str := str "\n... (diff truncated)"

/-- `llm.TruncateDiff`. -/
def TruncateDiff (diff : Str) (maxLength : Nat) : Str :=
  if diff.length ≤ maxLength then diff
  else diff.take maxLength ++ truncMarker

/-! ## Provider clients -/

/-- `llm.AnthropicClient` (the two stored fields). -/
structure AnthropicClient where
  apiKey : Str
  model : Str
deriving DecidableEq, Repr

/-- `llm.GeminiClient`. -/
structure GeminiClient where
  apiKey : Str
  model : Str
deriving DecidableEq, Repr

/-- `llm.OpenAIClient`. -/
structure OpenAIClient where
  apiKey : Str
  model : Str
deriving DecidableEq, Repr

/-- The allow-list of `llm.isClaudeModel`. -/
def validClaudeModels : List Str :=
  [str "claude-opus-4-5-20251101",
   str "claude-sonnet-4-5-20250929",
   str "claude-haiku-4-5-20251001",
   str "claude-opus-4-1-20250805",
   str "claude-sonnet-4-20250522",
   str "claude-3-opus-20240229",
   str "claude-3-sonnet-20240229",
   str "claude-3-5-sonnet-20240620",
   str "claude-3-haiku-20240307",
   str "claude-3-5-haiku-20241022"]

/-- `llm.isClaudeModel`: exact membership in the allow-list. -/
def isClaudeModel (model : Str) : Bool :=
  validClaudeModels.any (fun valid => model = valid)

/-- `llm.NewAnthropicClient`: error on empty key, default model when
the name is empty or unrecognised. -/
def NewAnthropicClient (apiKey model : Str) : Option AnthropicClient :=
  if apiKey = [] then none
  else
    let model := if model = [] || !isClaudeModel model
                 then str "claude-haiku-4-5-20251001" else model
    some ⟨apiKey, model⟩

/-- The allow-list of `llm.isGeminiModel`. -/
def validGeminiModels : List Str :=
  [str "gemini-2.5-pro",
   str "gemini-2.5-flash",
   str "gemini-2.5-flash-lite",
   str "gemini-2.0-flash",
   str "gemini-1.5-pro",
   str "gemini-1.5-flash",
   str "gemini-pro",
   str "gemini-pro-vision"]

/-- `llm.isGeminiModel`: membership after stripping a `models/`
namespace prefix. -/
def isGeminiModel (model : Str) : Bool :=
  let model := trimPref model (str "models/")
  validGeminiModels.any (fun valid => model = valid)

/-- `llm.NewGeminiClient`: error on empty key, default model when the
name is empty or unrecognised, then ensure the `models/` namespace
prefix on the stored identifier. -/
def NewGeminiClient (apiKey model : Str) : Option GeminiClient :=
  if apiKey = [] then none
  else
    let model := if model = [] || !isGeminiModel model
                 then str "gemini-2.5-flash" else model
    let model := if !startsWith model (str "models/")
                 then str "models/" ++ model else model
    some ⟨apiKey, model⟩

/-- The allow-list of `llm.isOpenAIModel`. -/
def validOpenAIModels : List Str :=
  [str "gpt-5.1",
   str "gpt-5",
   str "gpt-5-mini",
   str "gpt-5-nano",
   str "gpt-4.1",
   str "gpt-4.1-mini",
   str "gpt-4.1-nano",
   str "gpt-4",
   str "gpt-4-turbo",
   str "gpt-4-turbo-preview",
   str "gpt-4-0125-preview",
   str "gpt-4-1106-preview",
   str "gpt-3.5-turbo",
   str "gpt-3.5-turbo-0125",
   str "gpt-3.5-turbo-1106"]

/-- `llm.isOpenAIModel`: the name is recognised when some listed
identifier is a prefix of it (`strings.HasPrefix(model, valid)`). -/
def isOpenAIModel (model : Str) : Bool :=
  validOpenAIModels.any (fun valid => startsWith model valid)

/-- `llm.NewOpenAIClient`. -/
def NewOpenAIClient (apiKey model : Str) : Option OpenAIClient :=
  if apiKey = [] then none
  else
    let model := if model = [] || !isOpenAIModel model
                 then str "gpt-5-mini" else model
    some ⟨apiKey, model⟩

/-- The dynamic result of `llm.NewClient`, tagged by back-end family. -/
inductive ClientVal where
  | anthropic (c : AnthropicClient)
  | gemini (c : GeminiClient)
  | openai (c : OpenAIClient)
deriving DecidableEq, Repr

/-- `llm.NewClient`: error on missing key, then case-insensitive
substring dispatch on the model name, defaulting to Gemini. -/
def NewClient (model apiKey : Str) : Option ClientVal :=
  if apiKey = [] then none
  else
    let modelLower := toLowerStr model
    if containsSub modelLower (str "claude") then
      (NewAnthropicClient apiKey model).map ClientVal.anthropic
    else if containsSub modelLower (str "gemini") then
      (NewGeminiClient apiKey model).map ClientVal.gemini
    else if containsSub modelLower (str "gpt") then
      (NewOpenAIClient apiKey model).map ClientVal.openai
    else
      (NewGeminiClient apiKey model).map ClientVal.gemini

/-! ## The edit step (`prompt.EditCommitMessage`) -/

/-- The temp-file content `EditCommitMessage` writes before opening the
editor, for a given current message. -/
def editFileContent (current : CommitMessage) : Str :=
  str "HEADER: " ++ current.Header ++ str "\n\nDESCRIPTION: " ++
  current.Description ++ str "\n" ++
  str "\n# Please edit the commit message above.\n" ++
  str "# Lines starting with \x27#\x27 will be ignored.\n" ++
  str "# The first line should be the header (max 72 chars).\n" ++
  str "# The description can be multiple lines.\n"

/-- The loop state of `EditCommitMessage`'s re-parsing pass. -/
structure EditSt where
  header : Str
  description : Str
  descLines : List Str
  inDescription : Bool
deriving DecidableEq, Repr

/-- One step of `EditCommitMessage`'s scan over the edited lines:
comments are skipped, `HEADER:`/`DESCRIPTION:` lines (matched on the
raw line) set the fields, and non-blank lines after a `DESCRIPTION:`
line are collected. -/
def estep (st : EditSt) (line : Str) : EditSt :=
  if startsWith (trimSpace line) (str "#") then st
  else if startsWith line hdrMark then
    { st with header := trimSpace (trimPref line hdrMark) }
  else if startsWith line descMark then
    { st with description := trimSpace (trimPref line descMark),
              inDescription := true }
  else if st.inDescription && trimSpace line ≠ [] then
    { st with descLines := st.descLines ++ [line] }
  else st

/-- The pure tail of `prompt.EditCommitMessage` (lines 99-144): re-parse
the edited temp-file content into a `CommitMessage`, joining collected
description lines and falling back to the prior header when the parsed
header is empty.  The surrounding temp-file and editor-process I/O is
elided; `editedContent` is whatever the editor left in the file. -/
def EditCommitMessage (current : CommitMessage) (editedContent : Str) :
    CommitMessage :=
  let st := (splitNl editedContent).foldl estep ⟨[], [], [], false⟩
  let description :=
    if st.descLines ≠ [] then
      if st.description ≠ [] then
        st.description ++ str "\n" ++ joinNl st.descLines
      else joinNl st.descLines
    else st.description
  let header := if st.header = [] then current.Header else st.header
  ⟨header, description⟩

/-! ## The interaction loop -/

/-- A user decision in the interaction loop of `cmd.runCommit`: the
three entries of its `prompt.Select("Use this message?", ...)` menu.
An edit choice carries the text the external editor leaves in the temp
file, which `EditCommitMessage` re-parses. -/
inductive Choice where
  | yes
  | edit (editedContent : Str)
  | cancel

/-- The interactive commit-message loop of `cmd.runCommit` (the
`for !committed` loop with its `switch` on the selected choice), with
the terminal and git I/O elided and the user's successive menu
selections passed as a script: `cancel` returns with no commit made,
`edit` replaces the current message with the edit step's result and
re-enters the loop, and `yes` stages and commits, the final commit
text being `currentMessage.Format()` — returned here.  `none` means no
commit was made (cancelled, or the script ended while the Go loop
would still be prompting). -/
def interactionLoop : CommitMessage → List Choice → Option Str
  | _, [] => none
  | msg, Choice.yes :: _ => some msg.Format
  | _, Choice.cancel :: _ => none
  | msg, Choice.edit editedContent :: rest =>
    interactionLoop (EditCommitMessage msg editedContent) rest

/-- Spec-side reading of one line of `ParseResponse`: the header payload
the line contributes, if the trimmed line carries the `HEADER:` marker. -/
def hdrPayload (line : Str) : Option Str :=
  let t := trimSpace line
  if startsWith t hdrMark then some (trimSpace (trimPref t hdrMark)) else none

/-- Spec-side reading of one line of `ParseResponse`: the description
payload, if the trimmed line carries the `DESCRIPTION:` marker (a
`HEADER:` line is consumed by the first branch). -/
def descPayload (line : Str) : Option Str :=
  let t := trimSpace line
  if startsWith t hdrMark then none
  else if startsWith t descMark then some (trimSpace (trimPref t descMark))
  else none

/-- The last element of a list, or a default: what a repeatedly
overwritten variable holds after a scan. -/
def lastD : List Str → Str → Str
  | [], d => d
  | x :: xs, _ => lastD xs x

/-- The header text the scan of `ParseResponse` ends up with: the
payload of the last `HEADER:`-marked line, or empty. -/
def hdrExtract (response : Str) : Str :=
  lastD ((splitNl response).filterMap hdrPayload) []

/-- The description text the scan of `ParseResponse` ends up with. -/
def descExtract (response : Str) : Str :=
  lastD ((splitNl response).filterMap descPayload) []

/-- The marker-form rendering of a message: the text a cooperating
provider would produce for it. -/
def renderMarked (m : CommitMessage) : Str :=
  str "HEADER: " ++ m.Header ++ str "\nDESCRIPTION: " ++ m.Description

/-! ## List and trimming lemmas -/

theorem dropWhile_head_false {α : Type} (p : α → Bool) (l : List α) (a : α)
    (h : (l.dropWhile p).head? = some a) : p a = false := by
  induction l with
  | nil => simp [List.dropWhile] at h
  | cons b t ih =>
    rw [List.dropWhile_cons] at h
    by_cases hb : p b
    · simp [hb] at h
      exact ih h
    · simp [hb] at h
      subst h
      exact Bool.of_not_eq_true hb

theorem dropWhile_cons_of_neg {α : Type} (p : α → Bool) (l : List α) (a : α)
    (h : p a = false) : (a :: l).dropWhile p = a :: l := by
  simp [List.dropWhile_cons, h]

theorem dropWhile_append_of_ne_nil {α : Type} (p : α → Bool) (a b : List α)
    (h : a.dropWhile p ≠ []) :
    (a ++ b).dropWhile p = a.dropWhile p ++ b := by
  induction a with
  | nil => simp at h
  | cons x xs ih =>
    rw [List.cons_append, List.dropWhile_cons, List.dropWhile_cons]
    by_cases hx : p x
    · simp only [hx, if_true]
      rw [List.dropWhile_cons] at h
      simp only [hx, if_true] at h
      exact ih h
    · simp [hx]

theorem trimLeft_cons_of_not (c : Char) (rest : Str) (h : isSpace c = false) :
    trimLeft (c :: rest) = c :: rest :=
  dropWhile_cons_of_neg isSpace rest c h

theorem trimLeft_cons_of_space (c : Char) (rest : Str) (h : isSpace c = true) :
    trimLeft (c :: rest) = trimLeft rest := by
  simp [trimLeft, List.dropWhile_cons, h]

theorem trimRight_append_of_ne_nil (a b : Str) (h : trimRight b ≠ []) :
    trimRight (a ++ b) = a ++ trimRight b := by
  have hb : b.reverse.dropWhile isSpace ≠ [] := by
    intro hnil
    exact h (by simp [trimRight, hnil])
  simp only [trimRight, List.reverse_append]
  rw [dropWhile_append_of_ne_nil isSpace _ _ hb, List.reverse_append,
    List.reverse_reverse]

theorem trimRight_idem (s : Str) : trimRight (trimRight s) = trimRight s := by
  simp [trimRight, List.reverse_reverse, List.dropWhile_idempotent]

theorem trimSpace_nil : trimSpace [] = [] := rfl

theorem trimSpace_cons_of_space (c : Char) (rest : Str) (h : isSpace c = true) :
    trimSpace (c :: rest) = trimSpace rest := by
  simp [trimSpace, trimLeft_cons_of_space c rest h]

/-- The fixpoints of `trimSpace` are exactly the common fixpoints of its
two halves. -/
theorem trim_halves_of_trimSpace_eq (s : Str) (h : trimSpace s = s) :
    trimLeft s = s ∧ trimRight s = s := by
  have h1 : (trimLeft s).length ≤ s.length :=
    (List.dropWhile_suffix isSpace).length_le
  have h2 : (trimRight (trimLeft s)).length ≤ (trimLeft s).length := by
    simpa [trimRight] using
      ((List.dropWhile_suffix isSpace (l := (trimLeft s).reverse)).length_le)
  have hlen : (trimLeft s).length = s.length := by
    have := congrArg List.length h
    simp only [trimSpace] at this
    omega
  have hL : trimLeft s = s :=
    (List.dropWhile_suffix isSpace).eq_of_length hlen
  refine ⟨hL, ?_⟩
  have := h
  simp only [trimSpace, hL] at this
  exact this

theorem trimSpace_head_not_space (s : Str) (c : Char)
    (h : (trimSpace s).head? = some c) : isSpace c = false := by
  rcases hd : (trimLeft s).reverse.dropWhile isSpace with _ | ⟨a, t⟩
  · simp [trimSpace, trimRight, hd] at h
  · have hmem : (trimLeft s).reverse.dropWhile isSpace ≠ [] := by simp [hd]
    have hlast : ((trimLeft s).reverse.dropWhile isSpace).getLast? =
        ((trimLeft s).reverse).getLast? := by
      rcases List.dropWhile_suffix (l := (trimLeft s).reverse) isSpace with ⟨u, hu⟩
      have h2 := List.getLast?_append_of_ne_nil u hmem
      rw [hu] at h2
      exact h2.symm
    have hrev : (trimSpace s).head? = (trimLeft s).head? := by
      simp only [trimSpace, trimRight]
      rw [List.head?_reverse, hlast, List.getLast?_reverse]
    rw [hrev] at h
    exact dropWhile_head_false isSpace s c h

theorem trimLeft_trimSpace (s : Str) : trimLeft (trimSpace s) = trimSpace s := by
  rcases hd : trimSpace s with _ | ⟨c, t⟩
  · rfl
  · have : isSpace c = false := trimSpace_head_not_space s c (by rw [hd]; rfl)
    rw [← hd]
    rw [hd]
    exact trimLeft_cons_of_not c t this

theorem trimSpace_idem (s : Str) : trimSpace (trimSpace s) = trimSpace s := by
  show trimRight (trimLeft (trimSpace s)) = trimSpace s
  rw [trimLeft_trimSpace]
  show trimRight (trimRight (trimLeft s)) = trimSpace s
  rw [trimRight_idem]
  rfl

theorem mem_trimLeft {c : Char} {s : Str} (h : c ∈ trimLeft s) : c ∈ s :=
  (List.dropWhile_suffix isSpace).sublist.mem h

theorem mem_trimSpace {c : Char} {s : Str} (h : c ∈ trimSpace s) : c ∈ s := by
  apply mem_trimLeft
  simp only [trimSpace, trimRight] at h
  have := (List.dropWhile_suffix isSpace
    (l := (trimLeft s).reverse)).sublist.mem (List.mem_reverse.mp h)
  exact List.mem_reverse.mp this

/-! ## Line splitting lemmas -/

theorem splitNl_ne_nil (s : Str) : splitNl s ≠ [] := by
  cases s with
  | nil => simp [splitNl]
  | cons c rest =>
    simp only [splitNl]
    rcases splitNl rest with _ | ⟨l, ls⟩ <;> simp
    split <;> simp

theorem noNl_of_mem_splitNl (s : Str) : ∀ l ∈ splitNl s, '\n' ∉ l := by
  induction s with
  | nil =>
    intro l hl
    simp [splitNl] at hl
    simp [hl]
  | cons c rest ih =>
    intro l hl
    cases heq : splitNl rest with
    | nil => exact absurd heq (splitNl_ne_nil rest)
    | cons l0 ls =>
      simp only [splitNl, heq] at hl
      by_cases hc : c = '\n'
      · rw [if_pos hc] at hl
        rcases List.mem_cons.mp hl with h1 | hl2
        · subst h1; simp
        rcases List.mem_cons.mp hl2 with h1 | h1
        · rw [h1]
          exact ih l0 (by rw [heq]; exact List.mem_cons_self l0 ls)
        · exact ih l (by rw [heq]; exact List.mem_cons_of_mem l0 h1)
      · rw [if_neg hc] at hl
        rcases List.mem_cons.mp hl with h1 | h1
        · subst h1
          intro hmem
          rcases List.mem_cons.mp hmem with h2 | h2
          · exact hc h2.symm
          · exact ih l0 (by rw [heq]; exact List.mem_cons_self l0 ls) h2
        · exact ih l (by rw [heq]; exact List.mem_cons_of_mem l0 h1)

theorem splitNl_append_cons (xs ys : Str) (h : '\n' ∉ xs) :
    splitNl (xs ++ '\n' :: ys) = xs :: splitNl ys := by
  induction xs with
  | nil =>
    simp only [List.nil_append, splitNl]
    cases heq : splitNl ys with
    | nil => exact absurd heq (splitNl_ne_nil ys)
    | cons l ls => simp
  | cons x xs ih =>
    have hx : x ≠ '\n' := fun hc => h (by simp [hc])
    have hxs : '\n' ∉ xs := fun hc => h (List.mem_cons_of_mem x hc)
    show splitNl (x :: (xs ++ '\n' :: ys)) = (x :: xs) :: splitNl ys
    simp only [splitNl]
    rw [ih hxs]
    simp [hx]

theorem splitNl_of_noNl (s : Str) (h : '\n' ∉ s) : splitNl s = [s] := by
  induction s with
  | nil => rfl
  | cons c rest ih =>
    have hc : c ≠ '\n' := fun hc => h (by simp [hc])
    have hrest : '\n' ∉ rest := fun hm => h (List.mem_cons_of_mem c hm)
    simp [splitNl, ih hrest, hc]

/-! ## Prefix lemmas -/

theorem startsWith_append_self (p s : Str) : startsWith (p ++ s) p = true := by
  induction p with
  | nil => cases s <;> rfl
  | cons c cs ih => simp [startsWith, ih]

theorem startsWith_ex {s p : Str} (h : startsWith s p = true) :
    ∃ t, s = p ++ t := by
  induction p generalizing s with
  | nil => exact ⟨s, rfl⟩
  | cons c cs ih =>
    cases s with
    | nil => simp [startsWith] at h
    | cons a as =>
      simp only [startsWith, Bool.and_eq_true, beq_iff_eq] at h
      rcases ih h.2 with ⟨t, ht⟩
      exact ⟨t, by simp [h.1, ht]⟩

theorem startsWith_cons_false (a : Char) (s : Str) (b : Char) (p : Str)
    (h : a ≠ b) : startsWith (a :: s) (b :: p) = false := by
  simp [startsWith, h]

theorem startsWith_take (l : Str) (n : Nat) :
    startsWith l (l.take n) = true := by
  conv in startsWith l => rw [← List.take_append_drop n l]
  exact startsWith_append_self (l.take n) (l.drop n)

theorem trimPref_append (p t : Str) : trimPref (p ++ t) p = t := by
  simp [trimPref, startsWith_append_self, List.drop_left]

/-! ## Last-match characterisation of the response parser -/

theorem lastD_nil (d : Str) : lastD [] d = d := rfl

theorem lastD_cons (x : Str) (xs : List Str) (d : Str) :
    lastD (x :: xs) d = lastD xs x := rfl

theorem lastD_eq_getLast? (xs : List Str) (d : Str) :
    lastD xs d = xs.getLast?.getD d := by
  induction xs generalizing d with
  | nil => rfl
  | cons x xs ih =>
    rw [lastD_cons, ih]
    cases xs with
    | nil => rfl
    | cons y ys =>
      rw [List.getLast?_cons_cons,
        List.getLast?_eq_getLast (y :: ys) (List.cons_ne_nil y ys)]
      rfl

theorem foldl_pstep (lines : List Str) (a b : Str) :
    lines.foldl pstep (a, b) =
      (lastD (lines.filterMap hdrPayload) a,
       lastD (lines.filterMap descPayload) b) := by
  induction lines generalizing a b with
  | nil => simp [lastD_nil]
  | cons l ls ih =>
    rw [List.foldl_cons]
    by_cases h1 : startsWith (trimSpace l) hdrMark
    · have hp : hdrPayload l = some (trimSpace (trimPref (trimSpace l) hdrMark)) := by
        simp [hdrPayload, h1]
      have hd : descPayload l = none := by
        simp [descPayload, h1]
      have hstep : pstep (a, b) l =
          (trimSpace (trimPref (trimSpace l) hdrMark), b) := by
        simp [pstep, h1]
      rw [hstep, ih, List.filterMap_cons, List.filterMap_cons, hp, hd, lastD_cons]
    · by_cases h2 : startsWith (trimSpace l) descMark
      · have hp : hdrPayload l = none := by simp [hdrPayload, h1]
        have hd : descPayload l =
            some (trimSpace (trimPref (trimSpace l) descMark)) := by
          simp [descPayload, h1, h2]
        have hstep : pstep (a, b) l =
            (a, trimSpace (trimPref (trimSpace l) descMark)) := by
          simp [pstep, h1, h2]
        rw [hstep, ih, List.filterMap_cons, List.filterMap_cons, hp, hd, lastD_cons]
      · have hp : hdrPayload l = none := by simp [hdrPayload, h1]
        have hd : descPayload l = none := by simp [descPayload, h1, h2]
        have hstep : pstep (a, b) l = (a, b) := by simp [pstep, h1, h2]
        rw [hstep, ih, List.filterMap_cons, List.filterMap_cons, hp, hd]

/-- `ParseResponse`, re-expressed by the payload of the LAST line
carrying each marker. -/
theorem ParseResponse_lastMatch (response : Str) :
    ParseResponse response =
      (if hdrExtract response = [] then none
       else some ⟨if (hdrExtract response).length > 72
                  then (hdrExtract response).take 72
                  else hdrExtract response,
                  descExtract response⟩) := by
  simp only [ParseResponse, foldl_pstep, hdrExtract, descExtract]

/-- Both payload extractions return trimmed text drawn from the line. -/
theorem payload_props (line v : Str)
    (h : hdrPayload line = some v ∨ descPayload line = some v)
    (hline : '\n' ∉ line) : trimSpace v = v ∧ '\n' ∉ v := by
  have hv : v = trimSpace (trimPref (trimSpace line) hdrMark) ∨
      v = trimSpace (trimPref (trimSpace line) descMark) := by
    rcases h with h | h
    · simp only [hdrPayload] at h
      split at h
      · exact Or.inl (Option.some.inj h).symm
      · exact absurd h (by simp)
    · simp only [descPayload] at h
      split at h
      · exact absurd h (by simp)
      · split at h
        · exact Or.inr (Option.some.inj h).symm
        · exact absurd h (by simp)
  have key : ∀ mark : Str, v = trimSpace (trimPref (trimSpace line) mark) →
      trimSpace v = v ∧ '\n' ∉ v := by
    intro mark hm
    constructor
    · rw [hm]; exact trimSpace_idem _
    · intro hmem
      rw [hm] at hmem
      have h1 : '\n' ∈ trimPref (trimSpace line) mark := mem_trimSpace hmem
      have h2 : '\n' ∈ trimSpace line := by
        simp only [trimPref] at h1
        split at h1
        · exact List.mem_of_mem_drop h1
        · exact h1
      exact hline (mem_trimSpace h2)
  rcases hv with hm | hm
  · exact key hdrMark hm
  · exact key descMark hm

/-- The extracts are trimmed, newline-free text. -/
theorem extract_props (response : Str) :
    (trimSpace (hdrExtract response) = hdrExtract response ∧
      '\n' ∉ hdrExtract response) ∧
    (trimSpace (descExtract response) = descExtract response ∧
      '\n' ∉ descExtract response) := by
  constructor
  · rcases hx : ((splitNl response).filterMap hdrPayload).getLast? with _ | v
    · rw [hdrExtract, lastD_eq_getLast?, hx]
      exact ⟨rfl, by simp⟩
    · have hmem := List.mem_of_mem_getLast? hx
      rcases List.mem_filterMap.mp hmem with ⟨line, hline, hpay⟩
      have : hdrExtract response = v := by
        rw [hdrExtract, lastD_eq_getLast?, hx]; rfl
      rw [this]
      exact payload_props line v (Or.inl hpay)
        (noNl_of_mem_splitNl response line hline)
  · rcases hx : ((splitNl response).filterMap descPayload).getLast? with _ | v
    · rw [descExtract, lastD_eq_getLast?, hx]
      exact ⟨rfl, by simp⟩
    · have hmem := List.mem_of_mem_getLast? hx
      rcases List.mem_filterMap.mp hmem with ⟨line, hline, hpay⟩
      have : descExtract response = v := by
        rw [descExtract, lastD_eq_getLast?, hx]; rfl
      rw [this]
      exact payload_props line v (Or.inr hpay)
        (noNl_of_mem_splitNl response line hline)

/-- Structural facts about any successfully parsed message: non-empty
header of at most 72 characters, no embedded newlines, description a
trimmed single line. -/
theorem ParseResponse_some_props (response : Str) (m : CommitMessage)
    (h : ParseResponse response = some m) :
    m.Header ≠ [] ∧ m.Header.length ≤ 72 ∧ '\n' ∉ m.Header ∧
    trimSpace m.Description = m.Description ∧ '\n' ∉ m.Description := by
  rw [ParseResponse_lastMatch] at h
  by_cases hnil : hdrExtract response = []
  · rw [if_pos hnil] at h
    exact absurd h (by simp)
  · rw [if_neg hnil] at h
    have hm := Option.some.inj h
    obtain ⟨⟨hts, hd⟩, ⟨dts, dd⟩⟩ := extract_props response
    have hHeader : m.Header = (if (hdrExtract response).length > 72
        then (hdrExtract response).take 72 else hdrExtract response) := by
      rw [← hm]
    have hDescription : m.Description = descExtract response := by
      rw [← hm]
    refine ⟨?_, ?_, ?_, ?_, ?_⟩
    · rw [hHeader]
      split
      · rw [Ne, List.take_eq_nil_iff]
        simp [hnil]
      · exact hnil
    · rw [hHeader]
      split
      · rw [List.length_take]
        omega
      · omega
    · rw [hHeader]
      split
      · intro hmem
        exact hd (List.mem_of_mem_take hmem)
      · exact hd
    · rw [hDescription]; exact dts
    · rw [hDescription]; exact dd

/-! ## Parsing a marker-form rendering -/

theorem dropWhile_append_nil {α : Type} (p : α → Bool) (a b : List α)
    (h : a.dropWhile p = []) : (a ++ b).dropWhile p = b.dropWhile p := by
  induction a with
  | nil => rfl
  | cons x xs ih =>
    rw [List.dropWhile_cons] at h
    by_cases hx : p x
    · simp only [hx, if_true] at h
      rw [List.cons_append, List.dropWhile_cons]
      simp only [hx, if_true]
      exact ih h
    · simp [hx] at h

/-- A line starting with a non-space character trims to a line starting
with that same character. -/
theorem trimSpace_cons_not_space (c : Char) (rest : Str)
    (hc : isSpace c = false) : ∃ t, trimSpace (c :: rest) = c :: t := by
  have hL : trimLeft (c :: rest) = c :: rest := trimLeft_cons_of_not c rest hc
  show ∃ t, trimRight (trimLeft (c :: rest)) = c :: t
  rw [hL]
  simp only [trimRight, List.reverse_cons]
  by_cases hdrop : rest.reverse.dropWhile isSpace = []
  · rw [dropWhile_append_nil isSpace _ _ hdrop]
    rw [dropWhile_cons_of_neg isSpace [] c hc]
    exact ⟨[], rfl⟩
  · rw [dropWhile_append_of_ne_nil isSpace _ _ hdrop]
    rw [List.reverse_append]
    exact ⟨(rest.reverse.dropWhile isSpace).reverse, rfl⟩

/-- A marker followed by trimmed non-empty text is itself trimmed. -/
theorem trimSpace_append_of (c : Char) (m2 H : Str) (hc : isSpace c = false)
    (hH : trimSpace H = H) (hne : H ≠ []) :
    trimSpace (c :: (m2 ++ H)) = c :: (m2 ++ H) := by
  have hR : trimRight H = H := (trim_halves_of_trimSpace_eq H hH).2
  show trimRight (trimLeft (c :: (m2 ++ H))) = c :: (m2 ++ H)
  rw [trimLeft_cons_of_not _ _ hc]
  have : trimRight ((c :: m2) ++ H) = (c :: m2) ++ trimRight H :=
    trimRight_append_of_ne_nil (c :: m2) H (by rw [hR]; exact hne)
  rw [List.cons_append] at this
  rw [this, hR]
  simp

theorem ParseResponse_renderMarked (H D : Str) (hne : H ≠ [])
    (hts : trimSpace H = H) (hlen : H.length ≤ 72) (hnl : '\n' ∉ H)
    (dts : trimSpace D = D) (dnl : '\n' ∉ D) :
    ParseResponse (renderMarked ⟨H, D⟩) = some ⟨H, D⟩ := by
  have hshape : renderMarked ⟨H, D⟩ =
      (str "HEADER: " ++ H) ++ '\n' :: (str "DESCRIPTION: " ++ D) := by
    show (str "HEADER: " ++ H) ++ str "\nDESCRIPTION: " ++ D = _
    rw [List.append_assoc]
    rfl
  have hnlA : '\n' ∉ str "HEADER: " ++ H := by
    intro hm
    rcases List.mem_append.mp hm with h1 | h1
    · exact absurd h1 (by decide)
    · exact hnl h1
  have hnlB : '\n' ∉ str "DESCRIPTION: " ++ D := by
    intro hm
    rcases List.mem_append.mp hm with h1 | h1
    · exact absurd h1 (by decide)
    · exact dnl h1
  have hsplit : splitNl (renderMarked ⟨H, D⟩) =
      [str "HEADER: " ++ H, str "DESCRIPTION: " ++ D] := by
    rw [hshape, splitNl_append_cons _ _ hnlA,
      splitNl_of_noNl _ hnlB]
  have hstepA : pstep ([], []) (str "HEADER: " ++ H) = (H, []) := by
    have htsA : trimSpace (str "HEADER: " ++ H) = str "HEADER: " ++ H := by
      have := trimSpace_append_of 'H' (str "EADER: ") H (by decide) hts hne
      exact this
    have hswA : startsWith (str "HEADER: " ++ H) hdrMark = true :=
      startsWith_append_self hdrMark (' ' :: H)
    have hpayA : trimPref (str "HEADER: " ++ H) hdrMark = ' ' :: H :=
      trimPref_append hdrMark (' ' :: H)
    simp only [pstep, htsA, hswA, if_true, hpayA]
    rw [trimSpace_cons_of_space ' ' H (by decide), hts]
  have hstepB : pstep (H, []) (str "DESCRIPTION: " ++ D) = (H, D) := by
    by_cases hD : D = []
    · subst hD
      simp only [List.append_nil]
      have h1 : trimSpace (str "DESCRIPTION: ") = str "DESCRIPTION:" := by
        decide
      have h2 : startsWith (str "DESCRIPTION:") hdrMark = false := by decide
      have h3 : startsWith (str "DESCRIPTION:") descMark = true := by decide
      have h4 : trimPref (str "DESCRIPTION:") descMark = [] := by decide
      simp [pstep, h1, h2, h3, h4, trimSpace_nil]
    · have htsB : trimSpace (str "DESCRIPTION: " ++ D) =
          str "DESCRIPTION: " ++ D := by
        have := trimSpace_append_of 'D' (str "ESCRIPTION: ") D (by decide) dts hD
        exact this
      have hswB : startsWith (str "DESCRIPTION: " ++ D) hdrMark = false := by
        have : str "DESCRIPTION: " ++ D = 'D' :: (str "ESCRIPTION: " ++ D) := rfl
        rw [this]
        exact startsWith_cons_false 'D' _ 'H' _ (by decide)
      have hswB2 : startsWith (str "DESCRIPTION: " ++ D) descMark = true :=
        startsWith_append_self descMark (' ' :: D)
      have hpayB : trimPref (str "DESCRIPTION: " ++ D) descMark = ' ' :: D :=
        trimPref_append descMark (' ' :: D)
      simp only [pstep, htsB, hswB, hswB2, if_true, Bool.false_eq_true,
        if_false, hpayB]
      rw [trimSpace_cons_of_space ' ' D (by decide), dts]
  rw [ParseResponse, hsplit]
  simp only [List.foldl_cons, List.foldl_nil, hstepA, hstepB]
  rw [if_neg hne, if_neg (by omega : ¬ H.length > 72)]

/-! ## The edit buffer, re-parsed -/

theorem estep_comment (st : EditSt) (line : Str)
    (h : startsWith (trimSpace line) (str "#") = true) :
    estep st line = st := by
  simp [estep, h]

theorem estep_nil (st : EditSt) : estep st [] = st := by
  have h1 : startsWith (trimSpace []) (str "#") = false := by decide
  have h2 : startsWith ([] : Str) hdrMark = false := by decide
  have h3 : startsWith ([] : Str) descMark = false := by decide
  simp [estep, h1, h2, h3, trimSpace_nil]

theorem estep_hdr_line (st : EditSt) (N : Str) :
    estep st (str "HEADER: " ++ N) = { st with header := trimSpace N } := by
  have hcm : startsWith (trimSpace (str "HEADER: " ++ N)) (str "#") = false := by
    obtain ⟨t, ht⟩ :=
      trimSpace_cons_not_space 'H' (str "EADER: " ++ N) (by decide)
    have hline : trimSpace (str "HEADER: " ++ N) = 'H' :: t := ht
    rw [hline]
    exact startsWith_cons_false 'H' t '#' [] (by decide)
  have hsw : startsWith (str "HEADER: " ++ N) hdrMark = true :=
    startsWith_append_self hdrMark (' ' :: N)
  have hpay : trimPref (str "HEADER: " ++ N) hdrMark = ' ' :: N :=
    trimPref_append hdrMark (' ' :: N)
  simp only [estep, hcm, Bool.false_eq_true, if_false, hsw, if_true, hpay]
  rw [trimSpace_cons_of_space ' ' N (by decide)]

theorem estep_desc_line (st : EditSt) (D : Str) :
    estep st (str "DESCRIPTION: " ++ D) =
      { st with description := trimSpace D, inDescription := true } := by
  have hcm : startsWith (trimSpace (str "DESCRIPTION: " ++ D)) (str "#") =
      false := by
    obtain ⟨t, ht⟩ :=
      trimSpace_cons_not_space 'D' (str "ESCRIPTION: " ++ D) (by decide)
    have hline : trimSpace (str "DESCRIPTION: " ++ D) = 'D' :: t := ht
    rw [hline]
    exact startsWith_cons_false 'D' t '#' [] (by decide)
  have hhd : startsWith (str "DESCRIPTION: " ++ D) hdrMark = false := by
    have : str "DESCRIPTION: " ++ D = 'D' :: (str "ESCRIPTION: " ++ D) := rfl
    rw [this]
    exact startsWith_cons_false 'D' _ 'H' _ (by decide)
  have hsw : startsWith (str "DESCRIPTION: " ++ D) descMark = true :=
    startsWith_append_self descMark (' ' :: D)
  have hpay : trimPref (str "DESCRIPTION: " ++ D) descMark = ' ' :: D :=
    trimPref_append descMark (' ' :: D)
  simp only [estep, hcm, Bool.false_eq_true, if_false, hhd, hsw, if_true, hpay]
  rw [trimSpace_cons_of_space ' ' D (by decide)]

set_option maxRecDepth 100000 in
/-- Splitting the comment tail of the edit buffer into its lines. -/
theorem splitNl_comments :
    splitNl (str "\n# Please edit the commit message above.\n# Lines starting with \x27#\x27 will be ignored.\n# The first line should be the header (max 72 chars).\n# The description can be multiple lines.\n") =
      [[], str "# Please edit the commit message above.",
       str "# Lines starting with \x27#\x27 will be ignored.",
       str "# The first line should be the header (max 72 chars).",
       str "# The description can be multiple lines.", []] := by
  decide

/-- The lines of the edit buffer for a message with newline-free
fields. -/
theorem splitNl_editFileContent (N D : Str) (hnlN : '\n' ∉ N)
    (hnlD : '\n' ∉ D) :
    splitNl (editFileContent ⟨N, D⟩) =
      [str "HEADER: " ++ N, [], str "DESCRIPTION: " ++ D, [],
       str "# Please edit the commit message above.",
       str "# Lines starting with \x27#\x27 will be ignored.",
       str "# The first line should be the header (max 72 chars).",
       str "# The description can be multiple lines.", []] := by
  have hshape : editFileContent ⟨N, D⟩ =
      (str "HEADER: " ++ N) ++ '\n' ::
        ([] ++ '\n' :: ((str "DESCRIPTION: " ++ D) ++ '\n' ::
          str "\n# Please edit the commit message above.\n# Lines starting with \x27#\x27 will be ignored.\n# The first line should be the header (max 72 chars).\n# The description can be multiple lines.\n")) := by
    simp only [editFileContent, List.append_assoc, List.nil_append]
    rfl
  have hnlA : '\n' ∉ str "HEADER: " ++ N := by
    intro hm
    rcases List.mem_append.mp hm with h1 | h1
    · exact absurd h1 (by decide)
    · exact hnlN h1
  have hnlB : '\n' ∉ str "DESCRIPTION: " ++ D := by
    intro hm
    rcases List.mem_append.mp hm with h1 | h1
    · exact absurd h1 (by decide)
    · exact hnlD h1
  rw [hshape, splitNl_append_cons _ _ hnlA, splitNl_append_cons _ _ (by simp),
    splitNl_append_cons _ _ hnlB, splitNl_comments]

/-- Re-parsing an edit buffer in which only the header line was changed:
the new header is kept (with the prior header as fallback when it trims
to nothing) and the description line re-parses to exactly the prior
description. -/
theorem EditCommitMessage_headerOnly (cur : CommitMessage) (N : Str)
    (hnlN : '\n' ∉ N) (hnlD : '\n' ∉ cur.Description)
    (hD : trimSpace cur.Description = cur.Description) :
    EditCommitMessage cur (editFileContent ⟨N, cur.Description⟩) =
      ⟨if trimSpace N = [] then cur.Header else trimSpace N,
       cur.Description⟩ := by
  rw [EditCommitMessage, splitNl_editFileContent N cur.Description hnlN hnlD]
  have hc1 : startsWith
      (trimSpace (str "# Please edit the commit message above.")) (str "#") =
      true := by decide
  have hc2 : startsWith
      (trimSpace (str "# Lines starting with \x27#\x27 will be ignored."))
      (str "#") = true := by decide
  have hc3 : startsWith
      (trimSpace (str "# The first line should be the header (max 72 chars)."))
      (str "#") = true := by decide
  have hc4 : startsWith
      (trimSpace (str "# The description can be multiple lines.")) (str "#") =
      true := by decide
  rw [List.foldl_cons, estep_hdr_line]
  rw [List.foldl_cons, estep_nil]
  rw [List.foldl_cons, estep_desc_line]
  rw [List.foldl_cons, estep_nil]
  rw [List.foldl_cons, estep_comment _ _ hc1]
  rw [List.foldl_cons, estep_comment _ _ hc2]
  rw [List.foldl_cons, estep_comment _ _ hc3]
  rw [List.foldl_cons, estep_comment _ _ hc4]
  rw [List.foldl_cons, estep_nil, List.foldl_nil]
  simp only [hD]
  simp

/-! ## Constructor totality on non-empty keys -/

theorem NewAnthropicClient_isSome (apiKey model : Str) (h : apiKey ≠ []) :
    ∃ c, NewAnthropicClient apiKey model = some c := by
  unfold NewAnthropicClient
  rw [if_neg h]
  exact ⟨_, rfl⟩

theorem NewGeminiClient_isSome (apiKey model : Str) (h : apiKey ≠ []) :
    ∃ c, NewGeminiClient apiKey model = some c := by
  unfold NewGeminiClient
  rw [if_neg h]
  exact ⟨_, rfl⟩

theorem NewOpenAIClient_isSome (apiKey model : Str) (h : apiKey ≠ []) :
    ∃ c, NewOpenAIClient apiKey model = some c := by
  unfold NewOpenAIClient
  rw [if_neg h]
  exact ⟨_, rfl⟩

/-! ## The claims -/

/-- C1 counterexample: on `"HEADER: a\nHEADER: b"` the parser returns
header `"b"`, the payload of the LAST marked line, not `"a"` from the
first, refuting the first-line reading. -/
theorem C1_counterexample :
    ParseResponse (str "HEADER: a\nHEADER: b") = some ⟨str "b", []⟩ ∧
    str "b" ≠ str "a" := by
  decide

/-- C1 (amended): for every input string, the Header field is set from
the LAST line whose trimmed form begins with `HEADER:` (payload
stripped of the marker and surrounding whitespace, truncated to 72),
and Description from the LAST line beginning with `DESCRIPTION:`;
lines matching neither marker do not affect the extracted fields, and
the parser errors when no (non-empty) header payload remains. -/
theorem C1_last_marked_line_sets_fields (response : Str) :
    ParseResponse response =
      (if ((splitNl response).filterMap hdrPayload).getLast?.getD [] = []
       then none
       else some
        ⟨if (((splitNl response).filterMap hdrPayload).getLast?.getD
              []).length > 72
         then (((splitNl response).filterMap hdrPayload).getLast?.getD
              []).take 72
         else ((splitNl response).filterMap hdrPayload).getLast?.getD [],
         ((splitNl response).filterMap descPayload).getLast?.getD []⟩) := by
  rw [ParseResponse_lastMatch]
  simp only [hdrExtract, descExtract, lastD_eq_getLast?]

/-- C3: every successfully parsed Header has at most 72 characters; a
header payload longer than 72 characters is silently hard-truncated to
exactly 72 (still a success, never an error); in particular 100 `'a'`s
parse to exactly 72 `'a'`s. -/
theorem C3_header_hard_truncated_to_72 :
    (∀ response m, ParseResponse response = some m →
      m.Header.length ≤ 72) ∧
    (∀ response, 72 < (hdrExtract response).length →
      ParseResponse response =
        some ⟨(hdrExtract response).take 72, descExtract response⟩ ∧
      ((hdrExtract response).take 72).length = 72) ∧
    ParseResponse (str "HEADER: " ++ List.replicate 100 'a') =
      some ⟨List.replicate 72 'a', []⟩ := by
  refine ⟨?_, ?_, ?_⟩
  · intro r m h
    exact (ParseResponse_some_props r m h).2.1
  · intro r h
    have hne : hdrExtract r ≠ [] := by
      intro hnil
      rw [hnil] at h
      simp at h
    constructor
    · rw [ParseResponse_lastMatch, if_neg hne, if_pos h]
    · rw [List.length_take]
      omega
  · decide

/-- C3 witness: the truncation conjunct applied at the 100-`'a'`
input. -/
theorem C3_witness :
    ParseResponse (str "HEADER: " ++ List.replicate 100 'a') =
      some ⟨(hdrExtract (str "HEADER: " ++ List.replicate 100 'a')).take 72,
            descExtract (str "HEADER: " ++ List.replicate 100 'a')⟩ ∧
    ((hdrExtract (str "HEADER: " ++ List.replicate 100 'a')).take
      72).length = 72 :=
  C3_header_hard_truncated_to_72.2.1
    (str "HEADER: " ++ List.replicate 100 'a') (by decide)

/-- C8: when no line of the input (after trimming) begins with the
`HEADER:` marker, the parser returns its (only) error and no
message. -/
theorem C8_missing_header_always_errors (response : Str)
    (h : ∀ line ∈ splitNl response,
      startsWith (trimSpace line) hdrMark = false) :
    ParseResponse response = none := by
  have hnil : (splitNl response).filterMap hdrPayload = [] := by
    rw [List.filterMap_eq_nil_iff]
    intro line hline
    simp [hdrPayload, h line hline]
  rw [ParseResponse_lastMatch, hdrExtract, hnil, lastD_nil, if_pos rfl]

/-- C8 witness: a response with a description line but no header line
errors. -/
theorem C8_witness :
    ParseResponse (str "DESCRIPTION: only\nno marker here") = none :=
  C8_missing_header_always_errors
    (str "DESCRIPTION: only\nno marker here") (by decide)

/-- C10: a successful parse always carries a non-empty Header; the
parser errors exactly when the extracted, whitespace-trimmed header
text is empty, so a `HEADER:` line whose payload trims to nothing (such
as `"HEADER:   "`) still errors. -/
theorem C10_error_iff_trimmed_header_empty :
    (∀ response m, ParseResponse response = some m → m.Header ≠ []) ∧
    (∀ response, ParseResponse response = none ↔ hdrExtract response = []) ∧
    ParseResponse (str "HEADER:   ") = none := by
  refine ⟨?_, ?_, by decide⟩
  · intro r m h
    exact (ParseResponse_some_props r m h).1
  · intro r
    rw [ParseResponse_lastMatch]
    constructor
    · intro h
      by_contra hne
      rw [if_neg hne] at h
      exact absurd h (by simp)
    · intro h
      rw [if_pos h]

/-- C10 witness: the equivalence applied at `"HEADER:   "`, whose
marked line has an empty trimmed payload. -/
theorem C10_witness : ParseResponse (str "HEADER:   ") = none :=
  (C10_error_iff_trimmed_header_empty.2.1 (str "HEADER:   ")).mpr
    (by decide)

/-- C7: the final commit text is the Header, a blank line, then the
Description, with the blank line and Description omitted entirely when
the Description is empty; the scenario-2 example renders as
specified. -/
theorem C7_format_header_blank_description :
    (∀ m : CommitMessage, m.Description = [] →
      CommitMessage.Format m = m.Header) ∧
    (∀ m : CommitMessage, m.Description ≠ [] →
      CommitMessage.Format m = m.Header ++ str "\n\n" ++ m.Description) ∧
    CommitMessage.Format ⟨str "Fix bug", str "Resolves off-by-one"⟩ =
      str "Fix bug\n\nResolves off-by-one" := by
  refine ⟨?_, ?_, by decide⟩
  · intro m h
    simp [CommitMessage.Format, h]
  · intro m h
    simp [CommitMessage.Format, h]

/-- C7 witness: both branches applied at concrete messages. -/
theorem C7_witness :
    CommitMessage.Format ⟨str "Fix bug", []⟩ = str "Fix bug" ∧
    CommitMessage.Format ⟨str "Fix bug", str "Resolves off-by-one"⟩ =
      str "Fix bug" ++ str "\n\n" ++ str "Resolves off-by-one" :=
  ⟨C7_format_header_blank_description.1 ⟨str "Fix bug", []⟩ rfl,
   C7_format_header_blank_description.2.1
     ⟨str "Fix bug", str "Resolves off-by-one"⟩ (by decide)⟩

set_option maxRecDepth 40000 in
/-- C4 counterexample: on well-formed text containing both markers,
re-parsing the `Format` rendering of the parse result does NOT
reproduce the parse result — `Format` emits no markers, so the second
parse fails with the no-header error. -/
theorem C4_counterexample :
    containsSub (str "HEADER: Fix bug\nDESCRIPTION: Resolves off-by-one")
      hdrMark = true ∧
    containsSub (str "HEADER: Fix bug\nDESCRIPTION: Resolves off-by-one")
      descMark = true ∧
    (ParseResponse
        (str "HEADER: Fix bug\nDESCRIPTION: Resolves off-by-one")).bind
      (fun m => ParseResponse (CommitMessage.Format m)) ≠
      ParseResponse
        (str "HEADER: Fix bug\nDESCRIPTION: Resolves off-by-one") := by
  refine ⟨by decide, by decide, ?_⟩
  decide

/-- C4 (amended): round-tripping succeeds for the marker-form rendering
instead: whenever the parser succeeds and its Header is fully trimmed
(header truncation at character 72 can leave a trailing space, the one
exception) then parsing `"HEADER: " ++ Header ++ "\nDESCRIPTION: " ++
Description` returns exactly the original parse result. -/
theorem C4_roundtrip_for_marked_rendering (text : Str) (m : CommitMessage)
    (h : ParseResponse text = some m)
    (hts : trimSpace m.Header = m.Header) :
    ParseResponse (renderMarked m) = ParseResponse text := by
  obtain ⟨h1, h2, h3, h4, h5⟩ := ParseResponse_some_props text m h
  rw [h]
  obtain ⟨H, D⟩ := m
  exact ParseResponse_renderMarked H D h1 hts h2 h3 h4 h5

set_option maxRecDepth 40000 in
/-- C4 witness: the marked round-trip applied at the scenario-2
response. -/
theorem C4_witness :
    ParseResponse
        (renderMarked ⟨str "Fix bug", str "Resolves off-by-one"⟩) =
      ParseResponse
        (str "HEADER: Fix bug\nDESCRIPTION: Resolves off-by-one") :=
  C4_roundtrip_for_marked_rendering
    (str "HEADER: Fix bug\nDESCRIPTION: Resolves off-by-one")
    ⟨str "Fix bug", str "Resolves off-by-one"⟩ (by decide) (by decide)

/-- C2 counterexample: the edit step has NO field-by-field fallback for
the Description: when the edited text drops the `DESCRIPTION:` line the
prior (non-empty) Description is lost, not restored. -/
theorem C2_counterexample :
    EditCommitMessage ⟨str "Fix bug", str "keep me"⟩
        (str "HEADER: New header") = ⟨str "New header", []⟩ ∧
    str "keep me" ≠ ([] : Str) := by
  decide

/-- C2 (amended): the edit step falls back to the prior value for the
Header field only (when the edited header parses empty); the
Description is whatever the edited text yields.  The `[edit, yes]`
scenario still preserves the original Description, because an edit that
changes only the header line of the buffer leaves the `DESCRIPTION:`
line in place to be re-parsed. -/
theorem C2_header_fallback_and_edit_scenario :
    (∀ (cur : CommitMessage) (edited : Str),
      ((splitNl edited).foldl estep ⟨[], [], [], false⟩).header = [] →
      (EditCommitMessage cur edited).Header = cur.Header) ∧
    (∀ (cur : CommitMessage) (N : Str),
      '\n' ∉ N → '\n' ∉ cur.Description →
      trimSpace cur.Description = cur.Description →
      interactionLoop cur
        [Choice.edit (editFileContent ⟨N, cur.Description⟩), Choice.yes] =
      some (CommitMessage.Format
        ⟨if trimSpace N = [] then cur.Header else trimSpace N,
         cur.Description⟩)) := by
  constructor
  · intro cur edited h
    simp [EditCommitMessage, h]
  · intro cur N h1 h2 h3
    simp only [interactionLoop]
    rw [EditCommitMessage_headerOnly cur N h1 h2 h3]

set_option maxRecDepth 40000 in
/-- C2 witness: the scenario applied with a concrete prior message and
a concrete replacement header. -/
theorem C2_witness :
    interactionLoop ⟨str "Old header", str "Keep this text"⟩
      [Choice.edit
        (editFileContent ⟨str "New header", str "Keep this text"⟩),
       Choice.yes] =
    some (CommitMessage.Format
      ⟨if trimSpace (str "New header") = []
       then str "Old header" else trimSpace (str "New header"),
       str "Keep this text"⟩) :=
  C2_header_fallback_and_edit_scenario.2
    ⟨str "Old header", str "Keep this text"⟩ (str "New header")
    (by decide) (by decide) (by decide)

/-- C6: diff text within the bound passes through unchanged; longer
text is cut to the bound and given the truncation marker, so the output
length is the bound plus the marker length and the output is a prefix
of the original followed by the marker. -/
theorem C6_truncate_diff_bound (diff : Str) (maxLength : Nat) :
    (diff.length ≤ maxLength → TruncateDiff diff maxLength = diff) ∧
    (maxLength < diff.length →
      (TruncateDiff diff maxLength).length =
        maxLength + truncMarker.length ∧
      TruncateDiff diff maxLength = diff.take maxLength ++ truncMarker ∧
      startsWith diff (diff.take maxLength) = true) := by
  constructor
  · intro h
    simp [TruncateDiff, h]
  · intro h
    have hnot : ¬ diff.length ≤ maxLength := by omega
    refine ⟨?_, by simp [TruncateDiff, hnot], startsWith_take diff maxLength⟩
    simp only [TruncateDiff, hnot, if_false, List.length_append,
      List.length_take]
    omega

/-- C6 witness: both branches applied at concrete diffs and bounds. -/
theorem C6_witness :
    TruncateDiff (str "ab") 5 = str "ab" ∧
    (TruncateDiff (str "abcdef") 3).length = 3 + truncMarker.length :=
  ⟨(C6_truncate_diff_bound (str "ab") 5).1 (by decide),
   ((C6_truncate_diff_bound (str "abcdef") 3).2 (by decide)).1⟩

/-- C9 counterexample: the model name "claude-gemini" contains the
Google fragment "gemini", yet dispatch selects the Anthropic-style
client, because the "claude" check runs first — containing a family
fragment does not by itself determine the selected back-end. -/
theorem C9_counterexample :
    containsSub (toLowerStr (str "claude-gemini")) (str "gemini") = true ∧
    NewClient (str "claude-gemini") (str "k") =
      some (ClientVal.anthropic
        ⟨str "k", str "claude-haiku-4-5-20251001"⟩) := by
  decide

/-- C9 (amended): with a non-empty API key, dispatch tests the
lower-cased model name for the substrings "claude", "gemini", "gpt" IN
THAT ORDER and the first match wins; a name containing none of them
defaults to the Google-style client for backward compatibility. -/
theorem C9_dispatch_by_substring_in_order (model apiKey : Str)
    (h : apiKey ≠ []) :
    (containsSub (toLowerStr model) (str "claude") = true →
      ∃ c, NewClient model apiKey = some (ClientVal.anthropic c)) ∧
    (containsSub (toLowerStr model) (str "claude") = false →
      containsSub (toLowerStr model) (str "gemini") = true →
      ∃ c, NewClient model apiKey = some (ClientVal.gemini c)) ∧
    (containsSub (toLowerStr model) (str "claude") = false →
      containsSub (toLowerStr model) (str "gemini") = false →
      containsSub (toLowerStr model) (str "gpt") = true →
      ∃ c, NewClient model apiKey = some (ClientVal.openai c)) ∧
    (containsSub (toLowerStr model) (str "claude") = false →
      containsSub (toLowerStr model) (str "gemini") = false →
      containsSub (toLowerStr model) (str "gpt") = false →
      ∃ c, NewClient model apiKey = some (ClientVal.gemini c)) := by
  refine ⟨?_, ?_, ?_, ?_⟩
  · intro h1
    obtain ⟨c, hc⟩ := NewAnthropicClient_isSome apiKey model h
    exact ⟨c, by simp [NewClient, h, h1, hc]⟩
  · intro h1 h2
    obtain ⟨c, hc⟩ := NewGeminiClient_isSome apiKey model h
    exact ⟨c, by simp [NewClient, h, h1, h2, hc]⟩
  · intro h1 h2 h3
    obtain ⟨c, hc⟩ := NewOpenAIClient_isSome apiKey model h
    exact ⟨c, by simp [NewClient, h, h1, h2, h3, hc]⟩
  · intro h1 h2 h3
    obtain ⟨c, hc⟩ := NewGeminiClient_isSome apiKey model h
    exact ⟨c, by simp [NewClient, h, h1, h2, h3, hc]⟩

/-- C9 witness: the third branch applied at a GPT model name. -/
theorem C9_witness :
    ∃ c, NewClient (str "gpt-5-mini") (str "k") =
      some (ClientVal.openai c) :=
  (C9_dispatch_by_substring_in_order (str "gpt-5-mini") (str "k")
    (by decide)).2.2.1 (by decide) (by decide) (by decide)

/-- C5 counterexample: the Gemini back-end does not keep an
allow-listed model name unchanged — it stores it behind the fixed
`models/` namespace prefix. -/
theorem C5_counterexample :
    isGeminiModel (str "gemini-2.5-pro") = true ∧
    NewGeminiClient (str "k") (str "gemini-2.5-pro") =
      some ⟨str "k", str "models/gemini-2.5-pro"⟩ ∧
    str "models/gemini-2.5-pro" ≠ str "gemini-2.5-pro" := by
  decide

/-- C5 (amended): with a non-empty API key no constructor errors; an
empty or unrecognised model name resolves to the provider's documented
default; Anthropic and OpenAI keep a recognised name unchanged, while
Gemini keeps it only up to prepending the fixed `models/` namespace
prefix when absent (its default is likewise stored behind the
prefix). -/
theorem C5_model_validation_with_default (apiKey model : Str)
    (h : apiKey ≠ []) :
    ((model = [] ∨ isClaudeModel model = false) →
      NewAnthropicClient apiKey model =
        some ⟨apiKey, str "claude-haiku-4-5-20251001"⟩) ∧
    (isClaudeModel model = true →
      NewAnthropicClient apiKey model = some ⟨apiKey, model⟩) ∧
    ((model = [] ∨ isOpenAIModel model = false) →
      NewOpenAIClient apiKey model = some ⟨apiKey, str "gpt-5-mini"⟩) ∧
    (isOpenAIModel model = true →
      NewOpenAIClient apiKey model = some ⟨apiKey, model⟩) ∧
    ((model = [] ∨ isGeminiModel model = false) →
      NewGeminiClient apiKey model =
        some ⟨apiKey, str "models/gemini-2.5-flash"⟩) ∧
    (isGeminiModel model = true →
      NewGeminiClient apiKey model =
        some ⟨apiKey, if startsWith model (str "models/") then model
                      else str "models/" ++ model⟩) := by
  refine ⟨?_, ?_, ?_, ?_, ?_, ?_⟩
  · intro h1
    rcases h1 with h1 | h1 <;> simp [NewAnthropicClient, h, h1]
  · intro h1
    have hne : model ≠ [] := by
      intro hnil
      rw [hnil] at h1
      exact absurd h1 (by decide)
    simp [NewAnthropicClient, h, h1, hne]
  · intro h1
    rcases h1 with h1 | h1 <;> simp [NewOpenAIClient, h, h1]
  · intro h1
    have hne : model ≠ [] := by
      intro hnil
      rw [hnil] at h1
      exact absurd h1 (by decide)
    simp [NewOpenAIClient, h, h1, hne]
  · intro h1
    have hsw : startsWith (str "gemini-2.5-flash") (str "models/") =
        false := by decide
    have happ : str "models/" ++ str "gemini-2.5-flash" =
        str "models/gemini-2.5-flash" := by decide
    rcases h1 with h1 | h1 <;> simp [NewGeminiClient, h, h1, hsw, happ]
  · intro h1
    have hne : model ≠ [] := by
      intro hnil
      rw [hnil] at h1
      exact absurd h1 (by decide)
    cases hb : startsWith model (str "models/") with
    | false => simp [NewGeminiClient, h, h1, hne, hb]
    | true => simp [NewGeminiClient, h, h1, hne, hb]

/-- C5 witness: an empty model name resolving to the Anthropic default,
and an allow-listed Gemini name kept up to the namespace prefix. -/
theorem C5_witness :
    NewAnthropicClient (str "k") [] =
      some ⟨str "k", str "claude-haiku-4-5-20251001"⟩ ∧
    NewGeminiClient (str "k") (str "gemini-2.5-pro") =
      some ⟨str "k",
            if startsWith (str "gemini-2.5-pro") (str "models/")
            then str "gemini-2.5-pro"
            else str "models/" ++ str "gemini-2.5-pro"⟩ :=
  ⟨(C5_model_validation_with_default (str "k") [] (by decide)).1
     (Or.inl rfl),
   (C5_model_validation_with_default (str "k") (str "gemini-2.5-pro")
     (by decide)).2.2.2.2.2 (by decide)⟩

end AICommit
